import Mathlib

/-!
# exiftool-rs — verification of the metadata access model and scan orchestration layer

Shallow embedding of the exiftool-rs repository surface:

* `bootstrap.py` (build tooling) and `crates/exiftool-py/python/exiftool_py/__init__.py`
  (async wrappers) are translated directly from the Python source.
* The Rust core (`exiftool_py._core`: `open`, `scan`, `scan_dir`, `Image`, `Rational`,
  `GPS`, `PyScanResult`, the codec layer) ships only as a compiled extension and its
  sources are not part of this checkout; those components are modelled from the
  specification, with each such definition marked `Modelled from the spec`.
* `tests/info_all.py` (the JSON-preparation loop of a caller) is translated from source.

All machine integers are modelled as `Int`/`Nat`; fallible operations return `Except`;
byte sequences are `List Nat`.
-/

namespace Exif

/-! ## Value types -/

/-- Modelled from the spec (§3): exact numerator/denominator pair of integers.
The Rust `Rational` class is not in the checkout; only its stored fields are modelled. -/
structure Rational where
  num : Int
  den : Int
deriving DecidableEq, Repr

/-- Modelled from the spec (§3): `Rational(n, d)` reduces to lowest terms on
construction, keeps the denominator strictly positive and carries the sign on the
numerator.  Division here is exact (the gcd divides both arguments). -/
def mkRational (n d : Int) : Rational :=
  let g : Int := Int.gcd n d
  if 0 < d then { num := n / g, den := d / g }
  else { num := -(n / g), den := -(d / g) }

/-- Modelled from the spec (§3): latitude/longitude in signed decimal degrees with
optional altitude and timestamp.  Decimal degrees are modelled as exact `Rational`s
(the source values normalize from degree/minute/second rationals). -/
structure GPS where
  latitude : Rational
  longitude : Rational
  altitude : Option Rational
  timestamp : Option String
deriving DecidableEq, Repr

/-- Modelled from the spec (§3): tagged union of tag values.  The spec's
list-of-self variant is omitted: no claim under verification concerns list values,
and the remaining variants suffice for every accessor and export the spec names. -/
inductive TagValue where
  | intV (i : Int)
  | ratV (r : Rational)
  | strV (s : String)
  | bytesV (b : List Nat)
  | gpsV (g : GPS)
deriving DecidableEq, Repr

/-! ## TagMap and Image -/

/-- Modelled from the spec (§3): insertion-ordered mapping from tag name to value. -/
abbrev TagMap : Type := List (String × TagValue)

/-- Lookup by tag name, first match (keys are unique by the TagMap invariant). -/
def lookupTag (m : TagMap) (name : String) : Option TagValue :=
  (m.find? (fun e => e.1 == name)).map (fun e => e.2)

/-- Modelled from the spec (§4.1): update an existing tag in place or append a new
one at the end, preserving insertion order of the remaining keys. -/
def upsertTag (m : TagMap) (name : String) (v : TagValue) : TagMap :=
  match m with
  | [] => [(name, v)]
  | (k, w) :: rest =>
    if k = name then (name, v) :: rest else (k, w) :: upsertTag rest name v

/-- Modelled from the spec (§6, codec capability): a file is a sequence of segments;
a segment is either one the format models as a tag, or a blob of bytes the format
does not model (maker notes, preview images, padding, …). -/
inductive Segment where
  | tagSeg (name : String) (value : TagValue)
  | rawSeg (bytes : List Nat)
deriving DecidableEq, Repr

/-- Modelled from the spec (§6): `decode` extracts the tag-modelled segments, in
file order, into a TagMap. -/
def decodeSegs : List Segment → TagMap
  | [] => []
  | .tagSeg n v :: rest => (n, v) :: decodeSegs rest
  | .rawSeg _ :: rest => decodeSegs rest

/-- Modelled from the spec (§6): `encode(original_bytes, TagMap)` re-emits the
original segment sequence, writing each tag-modelled segment from the TagMap (a tag
absent from the map keeps its original value) and copying every non-tag segment
byte-identically (round-trip fidelity contract). -/
def encodeSegs (original : List Segment) (tags : TagMap) : List Segment :=
  original.map (fun s =>
    match s with
    | .tagSeg n v =>
      match lookupTag tags n with
      | some v' => .tagSeg n v'
      | none => .tagSeg n v
    | .rawSeg b => .rawSeg b)

/-- The segments the format does not model as tags, in order. -/
def rawParts (file : List Segment) : List (List Nat) :=
  file.filterMap (fun s =>
    match s with
    | .rawSeg b => some b
    | .tagSeg _ _ => none)

/-- Modelled from the spec (§3): an Image owns its source path, one TagMap, the
original encoded bytes (needed for format-preserving write-back) and a dirty flag. -/
structure Image where
  path : String
  tags : TagMap
  orig : List Segment
  dirty : Bool
deriving DecidableEq, Repr

/-- Modelled from the spec (§4.1): a successful `open` decodes the file content
into a TagMap and keeps the original bytes; the image starts clean. -/
def openImage (path : String) (content : List Segment) : Image :=
  { path := path, tags := decodeSegs content, orig := content, dirty := false }

/-- Modelled from the spec (§4.1): `save` encodes the current TagMap against the
original bytes; this is the byte sequence written back to disk. -/
def saveImage (img : Image) : List Segment :=
  encodeSegs img.orig img.tags

/-! ## Typed field accessors -/

/-- Error raised by a typed accessor on a kind-incompatible stored value
(`TagError` in the source taxonomy, spec §7). -/
inductive AccessError where
  | tagError
deriving DecidableEq, Repr

/-- The named field accessors the public surface exposes (spec §4.1). -/
inductive Field where
  | make
  | model
  | datetime
  | datetime_original
  | iso
  | fnumber
  | exposure_time
  | focal_length
  | width
  | height
  | gps
deriving DecidableEq, Repr

/-- Modelled from the spec (§4.1): each named field reads one well-known tag name. -/
def fieldTag : Field → String
  | .make => "Make"
  | .model => "Model"
  | .datetime => "DateTime"
  | .datetime_original => "DateTimeOriginal"
  | .iso => "ISO"
  | .fnumber => "FNumber"
  | .exposure_time => "ExposureTime"
  | .focal_length => "FocalLength"
  | .width => "ImageWidth"
  | .height => "ImageHeight"
  | .gps => "GPS"

/-- Modelled from the spec (§4.1): the value kind each typed accessor requires.
`true` means the stored value is compatible with the accessor's expected kind. -/
def accepts : Field → TagValue → Bool
  | .make, .strV _ => true
  | .model, .strV _ => true
  | .datetime, .strV _ => true
  | .datetime_original, .strV _ => true
  | .iso, .intV _ => true
  | .width, .intV _ => true
  | .height, .intV _ => true
  | .fnumber, .ratV _ => true
  | .exposure_time, .ratV _ => true
  | .focal_length, .ratV _ => true
  | .gps, .gpsV _ => true
  | _, _ => false

/-- Modelled from the spec (§4.1): a named-field read.  An absent tag yields the
missing sentinel `Except.ok none` (never an error); a present tag of an
incompatible kind fails with `TagError`. -/
def getField (f : Field) (img : Image) : Except AccessError (Option TagValue) :=
  match lookupTag img.tags (fieldTag f) with
  | none => .ok none
  | some v => if accepts f v then .ok (some v) else .error .tagError

/-- Accessor `img.make` (spec §4.1). -/
def make (img : Image) : Except AccessError (Option TagValue) := getField .make img

/-- Accessor `img.model` (spec §4.1). -/
def model (img : Image) : Except AccessError (Option TagValue) := getField .model img

/-- Accessor `img.iso` (spec §4.1). -/
def iso (img : Image) : Except AccessError (Option TagValue) := getField .iso img

/-- Accessor `img.gps` (spec §4.1). -/
def gps (img : Image) : Except AccessError (Option TagValue) := getField .gps img

/-! ## Mutation and the disk frame (spec §4.1, claim about no I/O before save) -/

/-- The filesystem, as a path-to-content association (content = segment list). -/
abbrev Disk : Type := List (String × List Segment)

/-- Read one file's content. -/
def readDisk (d : Disk) (p : String) : Option (List Segment) :=
  (d.find? (fun e => e.1 == p)).map (fun e => e.2)

/-- Replace one file's content (first binding wins, as in `lookupTag`). -/
def writeDisk (d : Disk) (p : String) (c : List Segment) : Disk :=
  match d with
  | [] => [(p, c)]
  | (q, old) :: rest => if q = p then (p, c) :: rest else (q, old) :: writeDisk rest p c

/-- Modelled from the spec (§4.1): setting a well-known field or an arbitrary tag
name updates the TagMap and marks the Image dirty.  The operation is pure on the
Image: it performs no file I/O. -/
def setTagImg (img : Image) (name : String) (v : TagValue) : Image :=
  { img with tags := upsertTag img.tags name v, dirty := true }

/-- The same mutation viewed against the whole world (Image, Disk): the disk
component is passed through untouched, which is exactly the "no file I/O occurs"
contract. -/
def setTagW (s : Image × Disk) (name : String) (v : TagValue) : Image × Disk :=
  (setTagImg s.1 name v, s.2)

/-- A whole sequence of field/tag mutations against the world. -/
def applyEditsW (s : Image × Disk) (edits : List (String × TagValue)) : Image × Disk :=
  edits.foldl (fun t e => setTagW t e.1 e.2) s

/-- Modelled from the spec (§4.1): only `save` writes: it encodes the current
TagMap against the original bytes, writes the result to the image's path, replaces
the original bytes and clears the dirty flag. -/
def saveW (s : Image × Disk) : Image × Disk :=
  let bytes := saveImage s.1
  ({ s.1 with orig := bytes, dirty := false }, writeDisk s.2 s.1.path bytes)

/-! ## Scan orchestration (spec §4.2, §4.3) -/

/-- Modelled from the spec (§3): a ScanResult owns the ordered successes and,
separately, the failure records (path + error). -/
structure ScanResult (P I E : Type) where
  successes : List (P × I)
  failures : List (P × E)
deriving DecidableEq

/-- Returns `true` iff the per-file open succeeded. -/
def eIsOk {E I : Type} : Except E I → Bool
  | .ok _ => true
  | .error _ => false

/-- Modelled from the spec (§4.2): sequential mode opens every candidate path
strictly in discovery order. -/
def scanSequential {P E I : Type} (openF : P → Except E I) (paths : List P) :
    List (P × Except E I) :=
  paths.map (fun p => (p, openF p))

/-- Modelled from the spec (§4.2, §5): in parallel mode the bounded worker pool
completes tasks in an arbitrary order; `order` is the sequence of task indices in
wall-clock completion order.  Each completed task carries its discovery index. -/
def runInCompletionOrder {P E I : Type} (openF : P → Except E I) (paths : List P)
    (order : List Nat) : List (Nat × (P × Except E I)) :=
  order.filterMap (fun i => (paths[i]?).map (fun p => (i, (p, openF p))))

/-- Modelled from the spec (§4.3): the orchestrator re-sequences out-of-order
parallel completions back into discovery order before exposing the result. -/
def resequence {P E I : Type} (n : Nat) (done : List (Nat × (P × Except E I))) :
    List (P × Except E I) :=
  (List.range n).filterMap (fun i => (done.find? (fun c => c.1 == i)).map (fun c => c.2))

/-- Parallel scan: run in completion order, then re-sequence. -/
def scanParallel {P E I : Type} (openF : P → Except E I) (paths : List P)
    (order : List Nat) : List (P × Except E I) :=
  resequence paths.length (runInCompletionOrder openF paths order)

/-- The per-path outcomes in exposed order, for either mode. -/
def scanOutcomes {P E I : Type} (openF : P → Except E I) (paths : List P)
    (parallel : Bool) (order : List Nat) : List (P × Except E I) :=
  if parallel then scanParallel openF paths order else scanSequential openF paths

/-- The successfully opened images, in exposed order. -/
def successesOf {P E I : Type} (outcomes : List (P × Except E I)) : List (P × I) :=
  outcomes.filterMap (fun o =>
    match o.2 with
    | .ok i => some (o.1, i)
    | .error _ => none)

/-- The failure records, in exposed order. -/
def failuresOf {P E I : Type} (outcomes : List (P × Except E I)) : List (P × E) :=
  outcomes.filterMap (fun o =>
    match o.2 with
    | .ok _ => none
    | .error e => some (o.1, e))

/-- The first failure, if any (fail-fast probe). -/
def firstError {P E I : Type} (outcomes : List (P × Except E I)) : Option E :=
  outcomes.findSome? (fun o =>
    match o.2 with
    | .ok _ => none
    | .error e => some e)

/-- Modelled from the spec (§4.2, §7): with `ignore_errors = true` every failing
open becomes a failure record on the ScanResult; with `ignore_errors = false` the
first failure becomes the scan's own failure and no partial ScanResult is built. -/
def collectScan {P E I : Type} (outcomes : List (P × Except E I))
    (ignore_errors : Bool) : Except E (ScanResult P I E) :=
  if ignore_errors then
    .ok { successes := successesOf outcomes, failures := failuresOf outcomes }
  else
    match firstError outcomes with
    | some e => .error e
    | none => .ok { successes := successesOf outcomes, failures := [] }

/-- Modelled from the spec (§4.2): the whole `scan` entry point over an already
discovered candidate path list. -/
def scan {P E I : Type} (openF : P → Except E I) (paths : List P)
    (parallel : Bool) (order : List Nat) (ignore_errors : Bool) :
    Except E (ScanResult P I E) :=
  collectScan (scanOutcomes openF paths parallel order) ignore_errors

/-! ## Async wrappers (translated from `exiftool_py/__init__.py`) -/

/-- Modelled from Python's `asyncio.to_thread`: run the blocking thunk on a worker
thread and hand its result — or its raised exception — back to the awaiting caller
unchanged.  With exceptions embedded as `Except` values this is exactly running
the thunk. -/
def to_thread {A : Type} (f : Unit → A) : A := f ()

/-- Translated from `open_async(path)` in `exiftool_py/__init__.py` (lines 54–67):
`return await asyncio.to_thread(open, path)`. -/
def open_async {E I : Type} (op : String → Except E I) (path : String) : Except E I :=
  to_thread (fun _ => op path)

/-- Translated from `scan_async(pattern, parallel=True, ignore_errors=True)` in
`exiftool_py/__init__.py` (lines 70–90):
`return await asyncio.to_thread(scan, pattern, parallel, ignore_errors)`. -/
def scan_async {E R : Type} (sc : String → Bool → Bool → Except E R)
    (pattern : String) (parallel : Bool := true) (ignore_errors : Bool := true) :
    Except E R :=
  to_thread (fun _ => sc pattern parallel ignore_errors)

/-- Translated from `scan_dir_async(directory, extensions=None, parallel=True)` in
`exiftool_py/__init__.py` (lines 93–108):
`return await asyncio.to_thread(scan_dir, directory, extensions, parallel)`. -/
def scan_dir_async {E R : Type} (sd : String → Option (List String) → Bool → Except E R)
    (directory : String) (extensions : Option (List String) := none)
    (parallel : Bool := true) : Except E R :=
  to_thread (fun _ => sd directory extensions parallel)

/-! ## Export / JSON preparation (spec §6 and `tests/info_all.py`) -/

/-- The Python-level value a tag surfaces as when the Image is exported with
`dict(img)` in `tests/info_all.py`. -/
inductive PyValue where
  | pyInt (i : Int)
  | pyStr (s : String)
  | pyBytes (b : List Nat)
  | pyRat (r : Rational)
  | pyGps (g : GPS)
deriving DecidableEq, Repr

/-- Returns `true` exactly on raw byte-sequence values. -/
def isPyBytes : PyValue → Bool
  | .pyBytes _ => true
  | _ => false

/-- The stored value as it crosses into Python, unconverted. -/
def toPyValue : TagValue → PyValue
  | .intV i => .pyInt i
  | .strV s => .pyStr s
  | .bytesV b => .pyBytes b
  | .ratV r => .pyRat r
  | .gpsV g => .pyGps g

/-- Modelled from `tests/info_all.py` (line 56, `d = dict(img)`): the library's
dict export is the ordered name-to-value sequence of the TagMap with the stored
values unchanged — the test's own comment calls the resulting values
"non-serializable", and its lines 58–62 convert bytes and Rational values itself,
so the export does not pre-render them. -/
def dictExport (img : Image) : List (String × PyValue) :=
  img.tags.map (fun e => (e.1, toPyValue e.2))

/-- Canonical text form of a Rational, `"num/den"` (spec §6). -/
def ratStr (r : Rational) : String :=
  toString r.num ++ "/" ++ toString r.den

/-- Translated from `tests/info_all.py` lines 58–62: the caller's per-value
conversion before `json.dumps` — a byte sequence becomes the length marker
`"<N bytes>"`, a Rational becomes its text form, everything else is unchanged. -/
def renderValue : PyValue → PyValue
  | .pyBytes b => .pyStr ("<" ++ toString b.length ++ " bytes>")
  | .pyRat r => .pyStr (ratStr r)
  | v => v

/-- Translated from `tests/info_all.py` lines 57–62: the whole dictionary after
the caller's conversion loop, ready for JSON serialization. -/
def jsonPrep (d : List (String × PyValue)) : List (String × PyValue) :=
  d.map (fun e => (e.1, renderValue e.2))

/-! ## Bootstrap script (translated from `bootstrap.py`) -/

/-- Outcome of `run(cmd, check)` in `bootstrap.py`: either the function returns
the subprocess's exit code, or it terminates the whole script via `sys.exit`. -/
inductive RunResult where
  | returned (code : Int)
  | exited (code : Int)
deriving DecidableEq, Repr

/-- Translated from `bootstrap.py` lines 36–41.  `env cmd` models the exit code
`subprocess.run(cmd).returncode` of the spawned command:

    result = subprocess.run(cmd)
    if check and result.returncode != 0:
        sys.exit(result.returncode)
    return result.returncode -/
def run (env : List String → Int) (cmd : List String) (check : Bool) : RunResult :=
  let rc := env cmd
  if check && decide (rc ≠ 0) then .exited rc else .returned rc

/-- A file in `target/wheels`, with its `st_mtime` modification time. -/
structure WheelFile where
  name : List Char
  mtime : Nat
deriving DecidableEq, Repr

/-- The glob `exiftool_py*.whl` used by `cmd_python` in `bootstrap.py`. -/
def matchesWheelGlob (name : List Char) : Bool :=
  ("exiftool_py".toList).isPrefixOf name && (".whl".toList).isSuffixOf name

/-- Python's `sorted(..., key=lambda p: p.stat().st_mtime, reverse=True)`:
a stable sort into non-increasing modification time. -/
def sortByMtimeDesc (files : List WheelFile) : List WheelFile :=
  files.mergeSort (fun a b => decide (b.mtime ≤ a.mtime))

/-- Translated from `bootstrap.py` lines 93–105 (`cmd_python`, `install` branch):
after a successful `maturin build` (`buildCode = 0`), glob `exiftool_py*.whl` in
`target/wheels`, sort by modification time newest-first, and pip-install the first
wheel if any; the returned list is the sequence of wheels passed to
`pip install`. -/
def installActions (buildCode : Int) (files : List WheelFile) : List WheelFile :=
  if buildCode = 0 then
    match sortByMtimeDesc (files.filter (fun w => matchesWheelGlob w.name)) with
    | [] => []
    | w :: _ => [w]
  else []

/-! ## Rational normalization lemmas -/

theorem Rational.eq_of_parts {a b : Rational} (h1 : a.num = b.num) (h2 : a.den = b.den) :
    a = b := by
  cases a; cases b; simp_all

theorem mkRational_den_pos {n d : Int} (hd : d ≠ 0) : 0 < (mkRational n d).den := by
  have hg : 0 < Int.gcd n d := Int.gcd_pos_iff.mpr (Or.inr hd)
  have hgz : (0 : Int) < (Int.gcd n d : Int) := by exact_mod_cast hg
  have hdvd : ((Int.gcd n d : Int)) ∣ d := Int.gcd_dvd_right
  unfold mkRational
  by_cases hpos : 0 < d
  · simp only [hpos, if_pos]
    exact Int.ediv_pos_of_pos_of_dvd hpos hgz.le hdvd
  · simp only [hpos, if_neg, not_false_iff]
    have hneg : d < 0 := lt_of_le_of_ne (not_lt.mp hpos) hd
    have hnd : 0 < -d := by omega
    have hdvd' : ((Int.gcd n d : Int)) ∣ -d := hdvd.neg_right
    have hq := Int.ediv_pos_of_pos_of_dvd hnd hgz.le hdvd'
    have hrw : -d / (Int.gcd n d : Int) = -(d / (Int.gcd n d : Int)) := Int.neg_ediv_of_dvd hdvd
    rw [hrw] at hq
    simpa using hq

theorem mkRational_gcd_one {n d : Int} (hd : d ≠ 0) :
    Int.gcd (mkRational n d).num (mkRational n d).den = 1 := by
  have hg : 0 < Int.gcd n d := Int.gcd_pos_iff.mpr (Or.inr hd)
  have hred := Int.gcd_div_gcd_div_gcd hg
  unfold mkRational
  by_cases hpos : 0 < d
  · simpa [hpos] using hred
  · simpa [hpos, Int.neg_gcd, Int.gcd_neg] using hred

theorem mkRational_cross {n d : Int} (hd : d ≠ 0) :
    (mkRational n d).num * d = n * (mkRational n d).den := by
  have hgn : ((Int.gcd n d : Int)) ∣ n := Int.gcd_dvd_left
  have hgd : ((Int.gcd n d : Int)) ∣ d := Int.gcd_dvd_right
  have hn : n / (Int.gcd n d : Int) * (Int.gcd n d : Int) = n := Int.ediv_mul_cancel hgn
  have hdq : d / (Int.gcd n d : Int) * (Int.gcd n d : Int) = d := Int.ediv_mul_cancel hgd
  have hkey : n / (Int.gcd n d : Int) * d = n * (d / (Int.gcd n d : Int)) := by
    calc n / (Int.gcd n d : Int) * d
        = n / (Int.gcd n d : Int) * (d / (Int.gcd n d : Int) * (Int.gcd n d : Int)) := by rw [hdq]
      _ = n / (Int.gcd n d : Int) * (Int.gcd n d : Int) * (d / (Int.gcd n d : Int)) := by ring
      _ = n * (d / (Int.gcd n d : Int)) := by rw [hn]
  unfold mkRational
  by_cases hpos : 0 < d
  · simpa [hpos] using hkey
  · simp only [hpos, if_neg, not_false_iff]
    calc -(n / (Int.gcd n d : Int)) * d = -(n / (Int.gcd n d : Int) * d) := by ring
      _ = -(n * (d / (Int.gcd n d : Int))) := by rw [hkey]
      _ = n * -(d / (Int.gcd n d : Int)) := by ring

theorem reduced_pair_unique {a1 b1 a2 b2 : Int}
    (hb1 : 0 < b1) (hb2 : 0 < b2)
    (hc1 : Int.gcd a1 b1 = 1) (hc2 : Int.gcd a2 b2 = 1)
    (h : a1 * b2 = a2 * b1) : a1 = a2 ∧ b1 = b2 := by
  have hcop1 : IsCoprime a1 b1 := Int.gcd_eq_one_iff_coprime.mp hc1
  have hcop2 : IsCoprime a2 b2 := Int.gcd_eq_one_iff_coprime.mp hc2
  have hd12 : b1 ∣ b2 := by
    have hmem : b1 ∣ b2 * a1 := ⟨a2, by linear_combination h⟩
    exact hcop1.symm.dvd_of_dvd_mul_right hmem
  have hd21 : b2 ∣ b1 := by
    have hmem : b2 ∣ b1 * a2 := ⟨a1, by linear_combination -h⟩
    exact hcop2.symm.dvd_of_dvd_mul_right hmem
  have hb : b1 = b2 := Int.dvd_antisymm hb1.le hb2.le hd12 hd21
  refine ⟨?_, hb⟩
  have hmul : a1 * b2 = a2 * b2 := by rw [h, hb]
  exact mul_right_cancel₀ (ne_of_gt hb2) hmul

/-- Claim C4: for every pair of integers `n`, `d` with `d ≠ 0`, the constructed
`Rational(n, d)` is stored in lowest terms with `gcd(|num|, den) = 1` (here
`Int.gcd`, which takes absolute values) and a strictly positive denominator — the
sign is carried by the numerator — and consequently any two constructions
denoting the same fraction (`n * d' = n' * d`) produce equal Rationals. -/
theorem C4_rational_invariants (n d : Int) (hd : d ≠ 0) :
    Int.gcd (mkRational n d).num (mkRational n d).den = 1 ∧
    0 < (mkRational n d).den ∧
    ∀ n' d', d' ≠ 0 → n * d' = n' * d → mkRational n d = mkRational n' d' := by
  refine ⟨mkRational_gcd_one hd, mkRational_den_pos hd, ?_⟩
  intro n' d' hd' hcross
  have c1 := mkRational_cross (n := n) (d := d) hd
  have c2 := mkRational_cross (n := n') (d := d') hd'
  have hkey : (mkRational n d).num * (mkRational n' d').den * (d * d')
      = (mkRational n' d').num * (mkRational n d).den * (d * d') := by
    linear_combination ((mkRational n' d').den * d') * c1
      - ((mkRational n d).den * d) * c2
      + ((mkRational n d).den * (mkRational n' d').den) * hcross
  have hdd : d * d' ≠ 0 := mul_ne_zero hd hd'
  have hnumden := mul_right_cancel₀ hdd hkey
  have hu := reduced_pair_unique (mkRational_den_pos hd) (mkRational_den_pos hd')
    (mkRational_gcd_one hd) (mkRational_gcd_one hd') hnumden
  exact Rational.eq_of_parts hu.1 hu.2

/-- Witness for C4 at the spec's own example: `Rational(2, 4)` is reduced,
has a positive denominator, and equals `Rational(1, 2)`. -/
theorem C4_rational_invariants_witness :
    Int.gcd (mkRational 2 4).num (mkRational 2 4).den = 1 ∧
    0 < (mkRational 2 4).den ∧
    mkRational 2 4 = mkRational 1 2 := by
  have h := C4_rational_invariants 2 4 (by decide)
  exact ⟨h.1, h.2.1, h.2.2 1 2 (by decide) (by decide)⟩

/-! ## Bootstrap `run` (claim C9) -/

/-- Claim C9: for every command, `run(cmd, check=True)` returns the command's
exit code when that code is zero and otherwise terminates the whole script with
that same nonzero exit code; `run(cmd, check=False)` always returns the
subprocess's exit code without terminating. -/
theorem C9_run_exit_semantics (env : List String → Int) (cmd : List String) :
    run env cmd true
      = (if env cmd = 0 then RunResult.returned (env cmd) else RunResult.exited (env cmd)) ∧
    run env cmd false = RunResult.returned (env cmd) := by
  constructor
  · by_cases h : env cmd = 0 <;> simp [run, h]
  · simp [run]

/-! ## Async wrappers (claim C1) -/

/-- Claim C1: for every path, pattern, directory and argument values — the
defaults `parallel=True`, `ignore_errors=True`, `extensions=None` included —
`open_async`, `scan_async` and `scan_dir_async` produce exactly the result (or
the error, embedded in `Except`) of the corresponding synchronous call with the
same arguments: the wrappers only hand the call to a worker (`to_thread`) and add
no failure mode of their own. -/
theorem C1_async_wrappers_equiv {E I R S : Type}
    (op : String → Except E I) (sc : String → Bool → Bool → Except E R)
    (sd : String → Option (List String) → Bool → Except E S)
    (path pattern directory : String) (parallel ignore_errors : Bool)
    (extensions : Option (List String)) :
    open_async op path = op path ∧
    scan_async sc pattern parallel ignore_errors = sc pattern parallel ignore_errors ∧
    scan_dir_async sd directory extensions parallel = sd directory extensions parallel :=
  ⟨rfl, rfl, rfl⟩

/-! ## Mutation frame (claim C8) -/

theorem lookupTag_upsertTag (m : TagMap) (name : String) (v : TagValue) :
    lookupTag (upsertTag m name v) name = some v := by
  induction m with
  | nil => simp [upsertTag, lookupTag]
  | cons e rest ih =>
    obtain ⟨k, w⟩ := e
    by_cases hk : k = name
    · simp [upsertTag, hk, lookupTag]
    · rw [upsertTag, if_neg hk]
      unfold lookupTag
      rw [List.find?_cons_of_neg]
      · exact ih
      · simp [hk]

theorem applyEditsW_snd (edits : List (String × TagValue)) :
    ∀ (img : Image) (d : Disk), (applyEditsW (img, d) edits).2 = d := by
  induction edits with
  | nil => intro img d; rfl
  | cons e rest ih =>
    intro img d
    have hstep : applyEditsW (img, d) (e :: rest)
        = applyEditsW (setTagImg img e.1 e.2, d) rest := rfl
    rw [hstep]
    exact ih _ _

/-- Claim C8: setting a well-known field or an arbitrary tag name updates only the
in-memory TagMap and sets the dirty flag; the disk component of the world is passed
through unchanged by a single mutation and by any sequence of mutations, so an
Image mutated and then dropped without `save()` leaves the source file exactly as
it was. -/
theorem C8_mutation_no_io (img : Image) (d : Disk) (name : String) (v : TagValue)
    (edits : List (String × TagValue)) :
    (setTagW (img, d) name v).2 = d ∧
    (setTagW (img, d) name v).1.dirty = true ∧
    lookupTag (setTagW (img, d) name v).1.tags name = some v ∧
    (applyEditsW (img, d) edits).2 = d ∧
    readDisk (applyEditsW (img, d) edits).2 img.path = readDisk d img.path := by
  refine ⟨rfl, rfl, ?_, applyEditsW_snd edits img d, ?_⟩
  · exact lookupTag_upsertTag img.tags name v
  · rw [applyEditsW_snd edits img d]

/-! ## Typed accessors (claim C5) -/

/-- Claim C5: for every Image and every named field accessor — `make`, `model`,
`datetime`, `datetime_original`, `iso`, `fnumber`, `exposure_time`,
`focal_length`, `width`, `height`, `gps`, all ranged over by `f` and `g` — an
absent underlying tag makes the accessor return the missing sentinel
(`Except.ok none`), never an error, while a typed accessor applied to a tag that
is present but stored with an incompatible value kind (here a textual value read
through a non-string accessor) fails with `TagError`. -/
theorem C5_accessor_missing_and_type_error (img : Image) (f g : Field) (s : String)
    (habsent : lookupTag img.tags (fieldTag f) = none)
    (hpresent : lookupTag img.tags (fieldTag g) = some (TagValue.strV s))
    (hmismatch : accepts g (TagValue.strV s) = false) :
    getField f img = .ok none ∧ getField g img = .error .tagError := by
  constructor
  · unfold getField
    rw [habsent]
  · unfold getField
    rw [hpresent]
    simp [hmismatch]

/-- Witness for C5: on an image whose only tag is a textual `"ISO"`, the `make`
accessor returns the missing sentinel and the numeric `iso` accessor fails with
`TagError`. -/
theorem C5_accessor_missing_and_type_error_witness :
    getField .make ⟨"a.jpg", [("ISO", TagValue.strV "high")], [], false⟩ = .ok none ∧
    getField .iso ⟨"a.jpg", [("ISO", TagValue.strV "high")], [], false⟩ = .error .tagError :=
  C5_accessor_missing_and_type_error
    ⟨"a.jpg", [("ISO", TagValue.strV "high")], [], false⟩
    .make .iso "high" rfl rfl rfl

/-! ## Codec round trip (claim C6) -/

theorem mem_decode_keys :
    ∀ (file : List Segment) (n : String) (v : TagValue),
      Segment.tagSeg n v ∈ file → n ∈ (decodeSegs file).map Prod.fst := by
  intro file
  induction file with
  | nil => intro n v h; cases h
  | cons s rest ih =>
    intro n v h
    cases s with
    | tagSeg m w =>
      rcases List.mem_cons.mp h with heq | hmem
      · cases heq
        simp [decodeSegs]
      · simp only [decodeSegs, List.map_cons]
        exact List.mem_cons_of_mem _ (ih n v hmem)
    | rawSeg b =>
      rcases List.mem_cons.mp h with heq | hmem
      · cases heq
      · simpa [decodeSegs] using ih n v hmem

theorem lookup_decode_of_nodup :
    ∀ (file : List Segment), ((decodeSegs file).map Prod.fst).Nodup →
      ∀ (n : String) (v : TagValue), Segment.tagSeg n v ∈ file →
        lookupTag (decodeSegs file) n = some v := by
  intro file
  induction file with
  | nil => intro _ n v h; cases h
  | cons s rest ih =>
    intro hnd n v h
    cases s with
    | tagSeg m w =>
      have hnd' : ((decodeSegs rest).map Prod.fst).Nodup := by
        simp only [decodeSegs, List.map_cons] at hnd
        exact hnd.of_cons
      have hmnot : m ∉ (decodeSegs rest).map Prod.fst := by
        simp only [decodeSegs, List.map_cons] at hnd
        exact (List.nodup_cons.mp hnd).1
      rcases List.mem_cons.mp h with heq | hmem
      · cases heq
        simp [decodeSegs, lookupTag]
      · have hne : m ≠ n := by
          intro hmn
          exact hmnot (hmn ▸ mem_decode_keys rest n v hmem)
        have hrest := ih hnd' n v hmem
        simp only [decodeSegs]
        unfold lookupTag
        rw [List.find?_cons_of_neg]
        · exact hrest
        · simp [hne]
    | rawSeg b =>
      have hnd' : ((decodeSegs rest).map Prod.fst).Nodup := by
        simpa [decodeSegs] using hnd
      rcases List.mem_cons.mp h with heq | hmem
      · cases heq
      · simpa [decodeSegs] using ih hnd' n v hmem

theorem encode_self :
    ∀ (file : List Segment) (tags : TagMap),
      (∀ (n : String) (v : TagValue), Segment.tagSeg n v ∈ file →
        lookupTag tags n = some v) →
      encodeSegs file tags = file := by
  intro file
  induction file with
  | nil => intro tags _; rfl
  | cons s rest ih =>
    intro tags h
    have hrest : encodeSegs rest tags = rest :=
      ih tags (fun n v hm => h n v (List.mem_cons_of_mem _ hm))
    cases s with
    | tagSeg n v =>
      have hl : lookupTag tags n = some v := h n v (List.mem_cons_self _ _)
      simp only [encodeSegs, List.map_cons] at hrest ⊢
      rw [hl]
      exact congrArg _ hrest
    | rawSeg b =>
      simp only [encodeSegs, List.map_cons] at hrest ⊢
      exact congrArg _ hrest

/-- Claim C6: for every file content whose decoded tag names are unique (the
TagMap invariant), `open(path)` followed immediately by `save()` with no
intervening mutation reproduces the file byte-identically in every segment the
format does not model as tags, and a subsequent `open` of the saved output yields
a TagMap identical to the one produced by the first `open`. -/
theorem C6_open_save_roundtrip (path : String) (content : List Segment)
    (h : ((decodeSegs content).map Prod.fst).Nodup) :
    saveImage (openImage path content) = content ∧
    rawParts (saveImage (openImage path content)) = rawParts content ∧
    decodeSegs (saveImage (openImage path content)) = decodeSegs content := by
  have he : encodeSegs content (decodeSegs content) = content :=
    encode_self content (decodeSegs content) (lookup_decode_of_nodup content h)
  have hs : saveImage (openImage path content) = content := by
    simpa [saveImage, openImage] using he
  exact ⟨hs, by rw [hs], by rw [hs]⟩

/-- Witness for C6 on a concrete three-segment file (JPEG-style marker bytes,
one modelled tag, trailing raw bytes). -/
theorem C6_open_save_roundtrip_witness :
    saveImage (openImage "p.jpg"
      [.rawSeg [255, 216], .tagSeg "Make" (TagValue.strV "Canon"), .rawSeg [0, 1]])
      = [.rawSeg [255, 216], .tagSeg "Make" (TagValue.strV "Canon"), .rawSeg [0, 1]] ∧
    rawParts (saveImage (openImage "p.jpg"
      [.rawSeg [255, 216], .tagSeg "Make" (TagValue.strV "Canon"), .rawSeg [0, 1]]))
      = rawParts [.rawSeg [255, 216], .tagSeg "Make" (TagValue.strV "Canon"), .rawSeg [0, 1]] ∧
    decodeSegs (saveImage (openImage "p.jpg"
      [.rawSeg [255, 216], .tagSeg "Make" (TagValue.strV "Canon"), .rawSeg [0, 1]]))
      = decodeSegs [.rawSeg [255, 216], .tagSeg "Make" (TagValue.strV "Canon"), .rawSeg [0, 1]] :=
  C6_open_save_roundtrip "p.jpg"
    [.rawSeg [255, 216], .tagSeg "Make" (TagValue.strV "Canon"), .rawSeg [0, 1]]
    (by decide)

/-! ## Export rendering (claim C7) -/

/-- Counterexample to claim C7 as stated: on the concrete image whose single tag
`"MakerNote"` stores the byte sequence `[0, 1, 2]`, the library's exported
structured form (`dict(img)`, as exercised by `tests/info_all.py`) still contains
a raw byte-sequence value, not a `"<N bytes>"` length marker — the conversion is
performed afterwards by the caller's own loop (`info_all.py` lines 56–64). -/
theorem C7_export_counterexample :
    ∃ e ∈ dictExport ⟨"f.jpg", [("MakerNote", TagValue.bytesV [0, 1, 2])], [], false⟩,
      isPyBytes e.2 = true := by
  refine ⟨("MakerNote", PyValue.pyBytes [0, 1, 2]), ?_, rfl⟩
  simp [dictExport, toPyValue]

theorem jsonPrep_dictExport (img : Image) :
    jsonPrep (dictExport img)
      = img.tags.map (fun e => (e.1, renderValue (toPyValue e.2))) := by
  unfold jsonPrep dictExport
  rw [List.map_map]
  rfl

theorem renderValue_not_bytes (v : TagValue) :
    isPyBytes (renderValue (toPyValue v)) = false := by
  cases v <;> rfl

/-- Claim C7 as amended: the exported structured form is the ordered
name-to-value sequence of the TagMap, and it is the caller's JSON-preparation
step (the conversion loop of `tests/info_all.py`, not the library's export
itself) that renders every byte-sequence value as the `"<N bytes>"` length
marker and every Rational as canonical `"numerator/denominator"` text; after
that step no raw byte value remains and the key order is preserved. -/
theorem C7_rendering_done_by_caller (img : Image) (k1 k2 : String)
    (b : List Nat) (r : Rational)
    (hb : (k1, TagValue.bytesV b) ∈ img.tags)
    (hr : (k2, TagValue.ratV r) ∈ img.tags) :
    ((jsonPrep (dictExport img)).map Prod.fst = img.tags.map Prod.fst) ∧
    (∀ e ∈ jsonPrep (dictExport img), isPyBytes e.2 = false) ∧
    (k1, PyValue.pyStr ("<" ++ toString b.length ++ " bytes>"))
      ∈ jsonPrep (dictExport img) ∧
    (k2, PyValue.pyStr (ratStr r)) ∈ jsonPrep (dictExport img) := by
  rw [jsonPrep_dictExport]
  refine ⟨?_, ?_, ?_, ?_⟩
  · rw [List.map_map]
    rfl
  · intro e he
    rcases List.mem_map.mp he with ⟨t, _, hte⟩
    rw [← hte]
    exact renderValue_not_bytes t.2
  · exact List.mem_map.mpr ⟨(k1, TagValue.bytesV b), hb, rfl⟩
  · exact List.mem_map.mpr ⟨(k2, TagValue.ratV r), hr, rfl⟩

/-- Witness for the amended C7 on a concrete image holding one byte-sequence tag
and one Rational tag. -/
theorem C7_rendering_done_by_caller_witness :
    ((jsonPrep (dictExport ⟨"f.jpg",
        [("MakerNote", TagValue.bytesV [7, 7]), ("FNumber", TagValue.ratV ⟨7, 5⟩)],
        [], false⟩)).map Prod.fst
      = ([("MakerNote", TagValue.bytesV [7, 7]),
          ("FNumber", TagValue.ratV ⟨7, 5⟩)] : TagMap).map Prod.fst) ∧
    (∀ e ∈ jsonPrep (dictExport ⟨"f.jpg",
        [("MakerNote", TagValue.bytesV [7, 7]), ("FNumber", TagValue.ratV ⟨7, 5⟩)],
        [], false⟩), isPyBytes e.2 = false) ∧
    ("MakerNote", PyValue.pyStr ("<" ++ toString ([7, 7] : List Nat).length ++ " bytes>"))
      ∈ jsonPrep (dictExport ⟨"f.jpg",
        [("MakerNote", TagValue.bytesV [7, 7]), ("FNumber", TagValue.ratV ⟨7, 5⟩)],
        [], false⟩) ∧
    ("FNumber", PyValue.pyStr (ratStr ⟨7, 5⟩))
      ∈ jsonPrep (dictExport ⟨"f.jpg",
        [("MakerNote", TagValue.bytesV [7, 7]), ("FNumber", TagValue.ratV ⟨7, 5⟩)],
        [], false⟩) :=
  C7_rendering_done_by_caller
    ⟨"f.jpg", [("MakerNote", TagValue.bytesV [7, 7]), ("FNumber", TagValue.ratV ⟨7, 5⟩)],
      [], false⟩
    "MakerNote" "FNumber" [7, 7] ⟨7, 5⟩ (by simp) (by simp)

/-! ## Scan orchestration lemmas (claims C2, C3) -/

theorem find?_runInCompletionOrder {P E I : Type} (openF : P → Except E I) (paths : List P) :
    ∀ (order : List Nat), (∀ k ∈ order, k < paths.length) →
      ∀ i ∈ order,
        (runInCompletionOrder openF paths order).find? (fun c => c.1 == i)
          = (paths[i]?).map (fun p => (i, (p, openF p))) := by
  intro order
  induction order with
  | nil => intro _ i hi; cases hi
  | cons j rest ih =>
    intro hbound i hi
    have hj : j < paths.length := hbound j (List.mem_cons_self _ _)
    have hpj : paths[j]? = some paths[j] := List.getElem?_eq_getElem hj
    rw [runInCompletionOrder, List.filterMap_cons]
    simp only [hpj, Option.map_some']
    by_cases hij : j = i
    · subst hij
      rw [List.find?_cons_of_pos _ (by simp)]
      rw [hpj]
      rfl
    · rw [List.find?_cons_of_neg _ (by simp [hij])]
      have hi' : i ∈ rest := by
        rcases List.mem_cons.mp hi with heq | hm
        · exact absurd heq.symm hij
        · exact hm
      have hrec := ih (fun k hk => hbound k (List.mem_cons_of_mem _ hk)) i hi'
      rw [runInCompletionOrder] at hrec
      exact hrec

theorem range_filterMap_getElem {P E I : Type} (openF : P → Except E I) :
    ∀ (paths : List P),
      (List.range paths.length).filterMap
          (fun i => (paths[i]?).map (fun p => (p, openF p)))
        = scanSequential openF paths := by
  intro paths
  induction paths with
  | nil => rfl
  | cons a rest ih =>
    rw [List.length_cons, List.range_succ_eq_map, List.filterMap_cons]
    simp only [List.getElem?_cons_zero, Option.map_some', List.filterMap_map]
    rw [List.filterMap_congr (g := fun i => (rest[i]?).map (fun p => (p, openF p)))]
    · rw [ih]
      rfl
    · intro i _
      simp [Function.comp, List.getElem?_cons_succ]

theorem scanParallel_eq_sequential {P E I : Type} (openF : P → Except E I)
    (paths : List P) (order : List Nat)
    (h : order.Perm (List.range paths.length)) :
    scanParallel openF paths order = scanSequential openF paths := by
  have hbound : ∀ k ∈ order, k < paths.length := fun k hk =>
    List.mem_range.mp (h.mem_iff.mp hk)
  have hmem : ∀ i, i < paths.length → i ∈ order := fun i hi =>
    h.mem_iff.mpr (List.mem_range.mpr hi)
  unfold scanParallel resequence
  rw [List.filterMap_congr (g := fun i => (paths[i]?).map (fun p => (p, openF p)))]
  · exact range_filterMap_getElem openF paths
  · intro i hi
    rw [find?_runInCompletionOrder openF paths order hbound i
      (hmem i (List.mem_range.mp hi))]
    cases paths[i]? <;> rfl

theorem successesOf_fst {P E I : Type} (openF : P → Except E I) :
    ∀ (paths : List P),
      (successesOf (scanSequential openF paths)).map Prod.fst
        = paths.filter (fun p => eIsOk (openF p)) := by
  intro paths
  induction paths with
  | nil => rfl
  | cons a rest ih =>
    cases ha : openF a with
    | ok i => simp [scanSequential, successesOf, List.filterMap_cons, ha, eIsOk,
        List.filter_cons] at ih ⊢ <;> simpa [scanSequential, successesOf] using ih
    | error e => simp [scanSequential, successesOf, List.filterMap_cons, ha, eIsOk,
        List.filter_cons] at ih ⊢ <;> simpa [scanSequential, successesOf] using ih

theorem successesOf_length {P E I : Type} (openF : P → Except E I) (paths : List P) :
    (successesOf (scanSequential openF paths)).length
      = paths.countP (fun p => eIsOk (openF p)) := by
  have hfst := congrArg List.length (successesOf_fst openF paths)
  rw [List.length_map] at hfst
  rw [hfst, List.countP_eq_length_filter]

theorem failuresOf_length {P E I : Type} (openF : P → Except E I) :
    ∀ (paths : List P),
      (failuresOf (scanSequential openF paths)).length
        = paths.countP (fun p => !eIsOk (openF p)) := by
  intro paths
  induction paths with
  | nil => rfl
  | cons a rest ih =>
    cases ha : openF a with
    | ok i => simpa [scanSequential, failuresOf, List.filterMap_cons, ha, eIsOk,
        List.countP_cons] using ih
    | error e => simpa [scanSequential, failuresOf, List.filterMap_cons, ha, eIsOk,
        List.countP_cons] using ih

theorem succ_fail_split {P E I : Type} (openF : P → Except E I) :
    ∀ (paths : List P),
      (successesOf (scanSequential openF paths)).length
        + (failuresOf (scanSequential openF paths)).length = paths.length := by
  intro paths
  induction paths with
  | nil => rfl
  | cons a rest ih =>
    cases ha : openF a with
    | ok i =>
      simp only [scanSequential, List.map_cons, successesOf, failuresOf,
        List.filterMap_cons, ha, List.length_cons] at ih ⊢
      omega
    | error e =>
      simp only [scanSequential, List.map_cons, successesOf, failuresOf,
        List.filterMap_cons, ha, List.length_cons] at ih ⊢
      omega

theorem mem_successes {P E I : Type} (openF : P → Except E I) (paths : List P) :
    ∀ p ∈ paths, eIsOk (openF p) = true →
      p ∈ (successesOf (scanSequential openF paths)).map Prod.fst := by
  intro p hp hok
  rw [successesOf_fst]
  exact List.mem_filter.mpr ⟨hp, hok⟩

theorem firstError_isSome_of_fail {P E I : Type} (openF : P → Except E I) :
    ∀ (paths : List P), (∃ p ∈ paths, eIsOk (openF p) = false) →
      ∃ e, firstError (scanSequential openF paths) = some e := by
  intro paths
  induction paths with
  | nil => rintro ⟨p, hp, _⟩; cases hp
  | cons a rest ih =>
    rintro ⟨p, hp, hfail⟩
    cases ha : openF a with
    | error e =>
      exact ⟨e, by simp [scanSequential, firstError, List.findSome?_cons, ha]⟩
    | ok i =>
      have hp' : p ∈ rest := by
        rcases List.mem_cons.mp hp with heq | hm
        · subst heq
          rw [ha] at hfail
          cases hfail
        · exact hm
      obtain ⟨e, he⟩ := ih ⟨p, hp', hfail⟩
      refine ⟨e, ?_⟩
      simp only [scanSequential, List.map_cons, firstError, List.findSome?_cons, ha]
      simpa [scanSequential, firstError] using he

/-- Claim C2: for a fixed candidate path list, the parallel scan — for every
possible wall-clock completion order of the workers, i.e. every permutation of
the task indices — produces exactly the same outcome sequence as the sequential
scan: the same whole `scan` result for either `ignore_errors` value, and a
success sequence identical in order and content, that order being the path
discovery order. -/
theorem C2_parallel_matches_sequential {P E I : Type} (openF : P → Except E I)
    (paths : List P) (order : List Nat)
    (horder : order.Perm (List.range paths.length)) :
    scanParallel openF paths order = scanSequential openF paths ∧
    (∀ ign : Bool, scan openF paths true order ign = scan openF paths false order ign) ∧
    (successesOf (scanParallel openF paths order)).map Prod.fst
      = paths.filter (fun p => eIsOk (openF p)) := by
  have hps := scanParallel_eq_sequential openF paths order horder
  refine ⟨hps, ?_, ?_⟩
  · intro ign
    unfold scan scanOutcomes
    simp [hps]
  · rw [hps]
    exact successesOf_fst openF paths

/-- Witness for C2 with three paths and completion order `[2, 0, 1]`. -/
theorem C2_parallel_matches_sequential_witness :
    scanParallel (fun p : Nat => (Except.ok p : Except Unit Nat)) [10, 11, 12] [2, 0, 1]
      = scanSequential (fun p : Nat => (Except.ok p : Except Unit Nat)) [10, 11, 12] ∧
    (∀ ign : Bool,
      scan (fun p : Nat => (Except.ok p : Except Unit Nat)) [10, 11, 12] true [2, 0, 1] ign
        = scan (fun p : Nat => (Except.ok p : Except Unit Nat)) [10, 11, 12] false [2, 0, 1] ign) ∧
    (successesOf (scanParallel (fun p : Nat => (Except.ok p : Except Unit Nat))
        [10, 11, 12] [2, 0, 1])).map Prod.fst
      = [10, 11, 12].filter (fun p => eIsOk ((fun p : Nat => (Except.ok p : Except Unit Nat)) p)) :=
  C2_parallel_matches_sequential
    (fun p : Nat => (Except.ok p : Except Unit Nat)) [10, 11, 12] [2, 0, 1] (by decide)

/-- Claim C3: for every scan over a candidate path list (either mode, any worker
completion order): with `ignore_errors = true` the scan returns a ScanResult in
which each failing open is a failure record and every non-failing path appears
among the accessible Images — the success and failure counts exactly partition
the path count; with `ignore_errors = false` and at least one failing open, the
scan call itself fails and returns no ScanResult at all. -/
theorem C3_ignore_errors_semantics {P E I : Type} (openF : P → Except E I)
    (paths : List P) (parallel : Bool) (order : List Nat)
    (horder : order.Perm (List.range paths.length)) :
    (∃ r, scan openF paths parallel order true = .ok r ∧
       r.successes.length = paths.countP (fun p => eIsOk (openF p)) ∧
       r.failures.length = paths.countP (fun p => !eIsOk (openF p)) ∧
       r.successes.length + r.failures.length = paths.length ∧
       ∀ p ∈ paths, eIsOk (openF p) = true → p ∈ r.successes.map Prod.fst) ∧
    ((∃ p ∈ paths, eIsOk (openF p) = false) →
       ∃ e, scan openF paths parallel order false = .error e) := by
  have hout : scanOutcomes openF paths parallel order = scanSequential openF paths := by
    cases parallel with
    | false => rfl
    | true =>
      simpa [scanOutcomes] using scanParallel_eq_sequential openF paths order horder
  constructor
  · refine ⟨⟨successesOf (scanSequential openF paths),
      failuresOf (scanSequential openF paths)⟩, ?_, ?_, ?_, ?_, ?_⟩
    · unfold scan
      rw [hout]
      rfl
    · exact successesOf_length openF paths
    · exact failuresOf_length openF paths
    · exact succ_fail_split openF paths
    · exact mem_successes openF paths
  · intro hfail
    obtain ⟨e, he⟩ := firstError_isSome_of_fail openF paths hfail
    refine ⟨e, ?_⟩
    unfold scan
    rw [hout]
    simp [collectScan, he]

/-- Witness for C3 at the spec's own scenario: 100 files of which the 5 with
index below 5 are corrupted — the tolerant scan yields exactly 95 successes and
5 failure records, and the intolerant scan fails outright. -/
theorem C3_ignore_errors_semantics_witness :
    (∃ r, scan (fun p : Nat => if p < 5 then (Except.error p : Except Nat Nat) else .ok p)
        (List.range 100) false (List.range 100) true = .ok r ∧
       r.successes.length = 95 ∧ r.failures.length = 5 ∧
       r.successes.length + r.failures.length = 100) ∧
    (∃ e, scan (fun p : Nat => if p < 5 then (Except.error p : Except Nat Nat) else .ok p)
        (List.range 100) false (List.range 100) false = .error e) := by
  have h := C3_ignore_errors_semantics
    (fun p : Nat => if p < 5 then (Except.error p : Except Nat Nat) else .ok p)
    (List.range 100) false (List.range 100) (List.Perm.refl _)
  obtain ⟨⟨r, hok, hs, hf, hsum, _⟩, hff⟩ := h
  refine ⟨⟨r, hok, ?_, ?_, ?_⟩, hff ⟨0, by decide, by decide⟩⟩
  · rw [hs]; decide
  · rw [hf]; decide
  · rw [hsum]; decide

/-! ## Wheel installation (claim C10) -/

theorem sortByMtimeDesc_perm (files : List WheelFile) :
    (sortByMtimeDesc files).Perm files :=
  List.mergeSort_perm files _

theorem sortByMtimeDesc_sorted (files : List WheelFile) :
    (sortByMtimeDesc files).Pairwise (fun a b => decide (b.mtime ≤ a.mtime) = true) := by
  apply List.sorted_mergeSort
  · intro a b c hab hbc
    have h1 : b.mtime ≤ a.mtime := of_decide_eq_true hab
    have h2 : c.mtime ≤ b.mtime := of_decide_eq_true hbc
    exact decide_eq_true (le_trans h2 h1)
  · intro a b
    rcases Nat.le_total b.mtime a.mtime with h | h
    · simp [h]
    · simp [h]

/-- Claim C10: when the `python install` subcommand's maturin build succeeds
(`buildCode = 0`) and at least one file in `target/wheels` matches
`exiftool_py*.whl`, exactly one wheel is pip-installed, it matches the glob, and
its modification time is greatest among all matching wheels (Python's stable
`sorted(..., reverse=True)` picks the most recently built one first). -/
theorem C10_install_latest_wheel (files : List WheelFile)
    (h : ∃ f ∈ files, matchesWheelGlob f.name = true) :
    ∃ w, installActions 0 files = [w] ∧ matchesWheelGlob w.name = true ∧ w ∈ files ∧
      ∀ f ∈ files, matchesWheelGlob f.name = true → f.mtime ≤ w.mtime := by
  obtain ⟨f0, hf0, hm0⟩ := h
  have hfilter : f0 ∈ files.filter (fun w => matchesWheelGlob w.name) :=
    List.mem_filter.mpr ⟨hf0, hm0⟩
  have hperm := sortByMtimeDesc_perm (files.filter (fun w => matchesWheelGlob w.name))
  have hne : sortByMtimeDesc (files.filter (fun w => matchesWheelGlob w.name)) ≠ [] := by
    intro hnil
    rw [hnil] at hperm
    exact absurd (hperm.mem_iff.mpr hfilter) (List.not_mem_nil f0)
  obtain ⟨w, rest, hcons⟩ := List.exists_cons_of_ne_nil hne
  have hsorted := sortByMtimeDesc_sorted (files.filter (fun w => matchesWheelGlob w.name))
  rw [hcons] at hsorted hperm
  have hwmem : w ∈ files.filter (fun x => matchesWheelGlob x.name) :=
    hperm.mem_iff.mp (List.mem_cons_self _ _)
  have hwprops := List.mem_filter.mp hwmem
  refine ⟨w, ?_, hwprops.2, hwprops.1, ?_⟩
  · unfold installActions
    rw [if_pos rfl, hcons]
  · intro f hf hmf
    have hfmem : f ∈ w :: rest :=
      hperm.mem_iff.mpr (List.mem_filter.mpr ⟨hf, hmf⟩)
    rcases List.mem_cons.mp hfmem with heq | hrest
    · rw [heq]
    · exact of_decide_eq_true ((List.pairwise_cons.mp hsorted).1 f hrest)

/-- Witness for C10: among a matching wheel with mtime 100, a non-matching file
with mtime 999 and a matching wheel with mtime 200, exactly one wheel is
installed and its mtime dominates every matching wheel's. -/
theorem C10_install_latest_wheel_witness :
    ∃ w, installActions 0
        [⟨"exiftool_py-0.1.0-cp39.whl".toList, 100⟩,
         ⟨"notes.txt".toList, 999⟩,
         ⟨"exiftool_py-0.2.0-cp39.whl".toList, 200⟩] = [w] ∧
      matchesWheelGlob w.name = true ∧
      w ∈ [⟨"exiftool_py-0.1.0-cp39.whl".toList, 100⟩,
           ⟨"notes.txt".toList, 999⟩,
           ⟨"exiftool_py-0.2.0-cp39.whl".toList, 200⟩] ∧
      ∀ f ∈ [(⟨"exiftool_py-0.1.0-cp39.whl".toList, 100⟩ : WheelFile),
             ⟨"notes.txt".toList, 999⟩,
             ⟨"exiftool_py-0.2.0-cp39.whl".toList, 200⟩],
        matchesWheelGlob f.name = true → f.mtime ≤ w.mtime :=
  C10_install_latest_wheel
    [⟨"exiftool_py-0.1.0-cp39.whl".toList, 100⟩,
     ⟨"notes.txt".toList, 999⟩,
     ⟨"exiftool_py-0.2.0-cp39.whl".toList, 200⟩]
    ⟨⟨"exiftool_py-0.1.0-cp39.whl".toList, 100⟩, by decide, by decide⟩

end Exif
